import Mathlib

/-!
Verification of the keyword-metadata store and the geometry utilities of
`safe/storage/utilities.py` (InaSAFE storage module).

The keyword store is modelled over file contents: a file on disk is an
`Option Str` (`none` when the file does not exist, `some content`
otherwise), a Python string is `Str := List Char`, and a Python
dictionary is an insertion-ordered association list.  The filename
extension check (`verify(ext == '.keywords')`), which both
`read_keywords` and `write_keywords` perform before touching the file,
is outside the model: every statement below is about calls whose
filename ends in `.keywords`, for which that check passes; it neither
reads nor writes the file.  Error messages are abbreviated (the source
interpolates the offending input into its messages).  Python 2
dictionaries iterate in a hash-dependent order; the model fixes
insertion order.
-/

abbrev Str : Type := List Char

/-- Python values that can appear in a keywords dictionary handed to
`write_keywords`: `None`, a string, or a value whose `str()` conversion
raises (the case `_keywords_to_string` guards with try/except). -/
inductive PyVal where
  | pnone : PyVal
  | pstr : Str → PyVal
  | bad : PyVal
deriving DecidableEq

/-- Keywords dictionary: insertion-ordered map from key to value. -/
abbrev KW : Type := List (Str × PyVal)

/-- The block map produced by `read_keywords(..., all_blocks=True)`. -/
abbrev Blocks : Type := List (Str × KW)

/-- Python `d[k] = v` on an association list: update in place if the key
exists, append otherwise. -/
def dict_set {α : Type} : List (Str × α) → Str → α → List (Str × α)
  | [], k, v => [(k, v)]
  | p :: rest, k, v => if p.1 = k then (k, v) :: rest else p :: dict_set rest k v

/-- Python `d[k]` / `k in d` lookup on an association list. -/
def dict_get {α : Type} : List (Str × α) → Str → Option α
  | [], _ => none
  | p :: rest, k => if p.1 = k then some p.2 else dict_get rest k

/-- Python `line.rstrip()`: drop trailing whitespace. -/
def rstrip (l : Str) : Str := (l.reverse.dropWhile Char.isWhitespace).reverse

/-- Python `line.lstrip()`: drop leading whitespace. -/
def lstrip (l : Str) : Str := l.dropWhile Char.isWhitespace

/-- Python `line.strip()`: drop surrounding whitespace. -/
def strip (l : Str) : Str := lstrip (rstrip l)

/-- Split file content into lines at every newline, as
`fid.readlines()` followed by per-line processing does.  (Python keeps
the trailing newline on each line and produces no final empty line; the
newline is whitespace removed by the `rstrip` that `read_keywords`
applies first, and the final empty line is blank and skipped, so the
two conventions process identically.) -/
def split_nl : Str → List Str
  | [] => [[]]
  | c :: cs =>
    if c = '\n' then [] :: split_nl cs
    else
      match split_nl cs with
      | [] => [[c]]
      | l :: ls => (c :: l) :: ls

/-- The `re.search(r'^\[.*]$', text)` test of `read_keywords`: the
(rstripped, hence newline-free) line is exactly `[` .. `]`. -/
def is_block_header (text : Str) : Bool :=
  decide (2 ≤ text.length ∧ text.head? = some '[' ∧ text.getLast? = some ']')

/-- Split at the first colon: `text[:idx]` and `text[idx+1:]` for
`idx = text.find(':')`.  Only used when a colon is present. -/
def split_first_colon : Str → Str × Str
  | [] => ([], [])
  | c :: rest =>
    if c = ':' then ([], rest)
    else
      let r := split_first_colon rest
      (c :: r.1, r.2)

/-- Parse one non-blank, non-header line of a keywords file: a line
without `:` is a bare key (stripped) with value `None`; otherwise the
key is everything before the first colon (not trimmed) and the value
everything after it, stripped. -/
def parse_data_line (text : Str) : Str × PyVal :=
  if ':' ∈ text then
    ((split_first_colon text).1, PyVal.pstr (strip (split_first_colon text).2))
  else
    (strip text, PyVal.pnone)

/-- Record one data line into the keywords accumulator
(`keywords[key] = val`). -/
def add_data_line (d : KW) (text : Str) : KW :=
  dict_set d (parse_data_line text).1 (parse_data_line text).2

/-- Loop state of the `read_keywords` parser. -/
structure ReadState where
  blocks : Blocks
  keywords : KW
  current_block : Option Str
  first_keywords : Option KW

/-- Commit the accumulated keywords under the current block name; a
commit happens only when the accumulator is non-empty and a current
block name is set. -/
def commit_blocks (st : ReadState) : Blocks :=
  match st.current_block with
  | some name => if st.keywords ≠ [] then dict_set st.blocks name st.keywords else st.blocks
  | none => st.blocks

/-- Record the first non-empty keywords batch seen at a header
boundary. -/
def upd_first (st : ReadState) : Option KW :=
  match st.first_keywords with
  | some f => some f
  | none => if st.keywords ≠ [] then some st.keywords else none

/-- One iteration of the `read_keywords` line loop. -/
def process_line (st : ReadState) (line : Str) : ReadState :=
  let text := rstrip line
  if text = [] then st
  else if is_block_header text then
    { blocks := commit_blocks st,
      keywords := [],
      current_block := some ((text.drop 1).dropLast),
      first_keywords := upd_first st }
  else
    { st with keywords := add_data_line st.keywords text }

/-- Run the `read_keywords` parser over a file's content and apply the
end-of-file commit, returning the block map together with the value of
`first_keywords` (defaulted to the final accumulator when never set). -/
def read_final (content : Str) : Blocks × KW :=
  let st := (split_nl content).foldl process_line ⟨[], [], none, none⟩
  (commit_blocks st,
   match st.first_keywords with
   | some f => f
   | none => st.keywords)

/-- `read_keywords(filename, all_blocks=True)`; a missing file gives an
empty dictionary. -/
def read_keywords_all : Option Str → Blocks
  | none => []
  | some content => (read_final content).1

/-- `read_keywords(filename, sublayer=s)`: the named block, or nothing
(`None`) when the file exists but holds no such block; an empty
dictionary when the file is missing. -/
def read_keywords_sub : Option Str → Str → Option KW
  | none, _ => some []
  | some content, sub => dict_get (read_final content).1 sub

/-- `read_keywords(filename)` with neither option: the recorded
`first_keywords`. -/
def read_keywords_default : Option Str → KW
  | none => []
  | some content => (read_final content).2

/-- Python `str(v)` on a keyword value: `str(None)` is the string
`"None"`; an unconvertible value raises. -/
def py_str : PyVal → Option Str
  | PyVal.pnone => some "None".toList
  | PyVal.pstr s => some s
  | PyVal.bad => none

/-- The validating serialisation loop of `_keywords_to_string`: each
key must not contain `:` and each value must convert with `str`; the
first offending entry raises.  On success the rendered `key: value`
lines are returned. -/
def keywords_body : KW → Except String Str
  | [] => Except.ok []
  | (k, v) :: rest =>
    if ':' ∈ k then Except.error "Key in keywords dictionary must not contain a colon"
    else
      match py_str v with
      | none => Except.error "Value in keywords dictionary must be convertible to a string"
      | some s =>
        match keywords_body rest with
        | Except.error e => Except.error e
        | Except.ok b => Except.ok (k ++ ':' :: ' ' :: (s ++ '\n' :: b))

/-- `_keywords_to_string(keywords, sublayer)`: optional `[sublayer]`
header followed by the rendered lines.  (The `isinstance(k, basestring)`
check is discharged by the model's types: keys are strings.) -/
def keywords_to_string (kw : KW) (sublayer : Option Str) : Except String Str :=
  match keywords_body kw with
  | Except.error e => Except.error e
  | Except.ok b =>
    Except.ok ((match sublayer with
                | some s => '[' :: (s ++ ']' :: '\n' :: ([] : Str))
                | none => ([] : Str)) ++ b)

/-- Outcome of `write_keywords` on the file.  `handle = file(filename,
'wt')` truncates the file before anything is serialised, and each block
is written as soon as it is rendered, so a validation error raised
mid-way (`err`) leaves on disk exactly what had been written by then. -/
inductive WriteResult where
  | ok : Str → WriteResult
  | err : Str → WriteResult
deriving DecidableEq

/-- The multilayer write loop of `write_keywords`: serialise each block
with its `[name]` header, writing a blank separator line after each;
a block that fails validation aborts the loop with the file holding the
already-written blocks. -/
def write_blocks : Blocks → Str → WriteResult
  | [], acc => WriteResult.ok acc
  | (name, kw) :: rest, acc =>
    match keywords_to_string kw (some name) with
    | Except.ok s => write_blocks rest (acc ++ s ++ '\n' :: ([] : Str))
    | Except.error _ => WriteResult.err acc

/-- `write_keywords(keywords, filename, sublayer)` as a function of the
current file content.  The existing content is read back with
`all_blocks=True`; since every value of that block map is itself a
dictionary, the source's `type(first_value) == dict` multilayer test is
exactly non-emptiness of the block map. -/
def write_keywords (keywords : KW) (sublayer : Option Str) (disk : Option Str) : WriteResult :=
  let existing := read_keywords_all disk
  if existing ≠ [] then
    match sublayer with
    | some s =>
      if s ≠ [] then write_blocks (dict_set existing s keywords) []
      else
        match keywords_to_string keywords none with
        | Except.ok out => WriteResult.ok out
        | Except.error _ => WriteResult.err []
    | none =>
      match keywords_to_string keywords none with
      | Except.ok out => WriteResult.ok out
      | Except.error _ => WriteResult.err []
  else
    match keywords_to_string keywords sublayer with
    | Except.ok out => WriteResult.ok out
    | Except.error _ => WriteResult.err []

/-- Hygiene of one dictionary entry for round-trip statements: the key
has no colon and no newline, the value is a string without newlines or
surrounding whitespace, and the rendered line does not itself look like
a `[...]` block header. -/
def clean_pair (k : Str) (v : PyVal) : Bool :=
  decide (':' ∉ k) && decide ('\n' ∉ k) &&
  match v with
  | PyVal.pstr s =>
    decide ('\n' ∉ s) && decide (lstrip s = s) && decide (rstrip s = s) &&
    !(decide (k.head? = some '[' ∧ s.getLast? = some ']'))
  | _ => false

/-- Keys of an association list are pairwise distinct (inherent to the
Python dictionaries being modelled). -/
def distinct_keys {α : Type} : List (Str × α) → Bool
  | [] => true
  | p :: rest => !(rest.any (fun q => q.1 == p.1)) && distinct_keys rest

/-- A dictionary all of whose entries are hygienic, with distinct keys. -/
def clean_kw (kw : KW) : Bool :=
  distinct_keys kw && kw.all (fun p => clean_pair p.1 p.2)

/-- The successful rendering of a dictionary's `key: value` lines
(what `keywords_body` returns when it does not raise). -/
def ser_body : KW → Str
  | [] => []
  | (k, v) :: rest => k ++ ':' :: ' ' :: ((py_str v).getD [] ++ '\n' :: ser_body rest)

/-- The keywords-accumulator effect of one line of the parser (used to
state lemmas about header-free line runs). -/
def data_step (d : KW) (l : Str) : KW :=
  if rstrip l = [] then d else add_data_line d (rstrip l)

/-- Join lines into file content, one newline after each line. -/
def join_lines : List Str → Str
  | [] => []
  | l :: ls => l ++ '\n' :: join_lines ls

/-- Bounding box `[west, south, east, north]`.  Coordinates are modelled
as rationals: `bbox_intersection` only compares and takes max/min, so
no rounding distinguishes this from the source's floats. -/
structure BBox where
  west : ℚ
  south : ℚ
  east : ℚ
  north : ℚ
deriving DecidableEq

/-- One intersection step: max of west/south, min of east/north. -/
def bbox_comb (r b : BBox) : BBox :=
  { west := max r.west b.west, south := max r.south b.south,
    east := min r.east b.east, north := min r.north b.north }

/-- The validation-and-intersection loop of `bbox_intersection`. -/
def bbox_loop : BBox → List BBox → Except String BBox
  | r, [] => Except.ok r
  | r, b :: rest =>
    if ¬ b.west < b.east then
      Except.error "Western boundary must be less than eastern"
    else if ¬ b.south < b.north then
      Except.error "Southern boundary must be less than northern"
    else bbox_loop (bbox_comb r b) rest

/-- `bbox_intersection(*args)`: at least two boxes, each with
`west < east` and `south < north`; fold from the universal box
`[-180, -90, 180, 90]`; a degenerate result becomes `None`. -/
def bbox_intersection (args : List BBox) : Except String (Option BBox) :=
  if args.length ≤ 1 then
    Except.error "Function bbox_intersection must take at least 2 arguments"
  else
    match bbox_loop ⟨-180, -90, 180, 90⟩ args with
    | Except.error e => Except.error e
    | Except.ok r => Except.ok (if r.west < r.east ∧ r.south < r.north then some r else none)

/-- The shoelace cross-product sum over consecutive vertex pairs:
`sum (x_i * y_(i+1) - y_i * x_(i+1))`. -/
def shoelace_sum : List (ℚ × ℚ) → ℚ
  | p0 :: p1 :: rest => (p0.1 * p1.2 - p0.2 * p1.1) + shoelace_sum (p1 :: rest)
  | _ => 0

/-- `calculate_polygon_area(polygon, signed)`: half the shoelace sum,
with the absolute value taken unless `signed`. -/
def calculate_polygon_area (polygon : List (ℚ × ℚ)) (signed : Bool) : ℚ :=
  let A := shoelace_sum polygon / 2
  if signed then A else |A|

/-- The numerator sum of the centroid x coordinate:
`sum ((x_i + x_(i+1)) * (x_i * y_(i+1) - y_i * x_(i+1)))`. -/
def centroid_sum_x : List (ℚ × ℚ) → ℚ
  | p0 :: p1 :: rest => (p0.1 + p1.1) * (p0.1 * p1.2 - p0.2 * p1.1) + centroid_sum_x (p1 :: rest)
  | _ => 0

/-- The numerator sum of the centroid y coordinate. -/
def centroid_sum_y : List (ℚ × ℚ) → ℚ
  | p0 :: p1 :: rest => (p0.2 + p1.2) * (p0.1 * p1.2 - p0.2 * p1.1) + centroid_sum_y (p1 :: rest)
  | _ => 0

/-- `numpy.amin` over one coordinate (only ever applied to non-empty
rings; the empty case is given a junk default). -/
def list_min : List ℚ → ℚ
  | [] => 0
  | x :: xs => xs.foldl min x

/-- Translate every vertex by subtracting `(a, b)`. -/
def translate_poly (polygon : List (ℚ × ℚ)) (a b : ℚ) : List (ℚ × ℚ) :=
  polygon.map (fun p => (p.1 - a, p.2 - b))

/-- `calculate_polygon_centroid(polygon)`: subtract the coordinate-wise
minimum, form the centroid numerator sums on the translated ring,
divide by `6A` — where the source computes the signed area `A` on the
ORIGINAL ring (line 917 passes `polygon`, not the translated copy) —
and translate back. -/
def calculate_polygon_centroid (polygon : List (ℚ × ℚ)) : ℚ × ℚ :=
  let ox := list_min (polygon.map Prod.fst)
  let oy := list_min (polygon.map Prod.snd)
  let Q := translate_poly polygon ox oy
  let A := calculate_polygon_area polygon true
  (centroid_sum_x Q / (6 * A) + ox, centroid_sum_y Q / (6 * A) + oy)

/-- Reference centroid computation following the specification's words
for the refinement claim: identical to `calculate_polygon_centroid`
except that the signed area is computed on the TRANSLATED ring. -/
def spec_polygon_centroid (polygon : List (ℚ × ℚ)) : ℚ × ℚ :=
  let ox := list_min (polygon.map Prod.fst)
  let oy := list_min (polygon.map Prod.snd)
  let Q := translate_poly polygon ox oy
  let A := calculate_polygon_area Q true
  (centroid_sum_x Q / (6 * A) + ox, centroid_sum_y Q / (6 * A) + oy)

/-- Python `int()` applied to a float: truncation toward zero. -/
noncomputable def float_int (x : ℝ) : ℤ := if 0 ≤ x then ⌊x⌋ else ⌈x⌉

/-- The segment length `L = sqrt((x1-x0)^2 + (y1-y0)^2)` of
`points_between_points`. -/
noncomputable def seg_length (p1 p2 : ℝ × ℝ) : ℝ :=
  Real.sqrt ((p2.1 - p1.1) ^ 2 + (p2.2 - p1.2) ^ 2)

/-- `points_between_points(point1, point2, delta)`: the start point
followed by `int(L / delta)` points spaced `delta` apart along the unit
direction `(p2 - p1) / L`.  Real division is total in the model; the
source divides numpy arrays, where a zero `L` yields NaN entries with a
warning (not an exception) and the resulting vector is unused because
the loop runs zero times. -/
noncomputable def points_between_points (point1 point2 : ℝ × ℝ) (delta : ℝ) : List (ℝ × ℝ) :=
  let L := seg_length point1 point2
  let pieces := (float_int (L / delta)).toNat
  let ux := (point2.1 - point1.1) / L
  let uy := (point2.2 - point1.2) / L
  point1 :: (List.range pieces).map (fun (nn : ℕ) =>
    (point1.1 + ux * ((nn : ℝ) + 1) * delta, point1.2 + uy * ((nn : ℝ) + 1) * delta))

/-- The point at travelled distance `n * delta` from `p1` toward `p2`,
used to state the claim's step description. -/
noncomputable def step_point (p1 p2 : ℝ × ℝ) (delta : ℝ) (n : ℕ) : ℝ × ℝ :=
  (p1.1 + (p2.1 - p1.1) / seg_length p1 p2 * (n : ℝ) * delta,
   p1.2 + (p2.2 - p1.2) / seg_length p1 p2 * (n : ℝ) * delta)

/-- Insert every entry of `kw` into `d` in order (the accumulated
effect of the parser on a run of data lines). -/
def ins_all (d : KW) (kw : KW) : KW :=
  kw.foldl (fun acc p => dict_set acc p.1 p.2) d

deriving instance DecidableEq for Except

theorem dict_get_set_self {α : Type} (d : List (Str × α)) (k : Str) (v : α) :
    dict_get (dict_set d k v) k = some v := by
  induction d with
  | nil => simp [dict_set, dict_get]
  | cons p rest ih =>
    by_cases h : p.1 = k
    · simp [dict_set, dict_get, h]
    · simp [dict_set, dict_get, h, ih]

theorem dict_get_set_other {α : Type} (d : List (Str × α)) (k k' : Str) (v : α)
    (h : k' ≠ k) : dict_get (dict_set d k v) k' = dict_get d k' := by
  induction d with
  | nil => simp [dict_set, dict_get, Ne.symm h]
  | cons p rest ih =>
    by_cases hp : p.1 = k
    · subst hp
      simp [dict_set, dict_get, Ne.symm h, h]
    · by_cases hp' : p.1 = k'
      · simp [dict_set, dict_get, hp, hp', h]
      · simp [dict_set, dict_get, hp, hp', ih]

theorem dict_set_fresh {α : Type} (d : List (Str × α)) (k : Str) (v : α)
    (h : ∀ p ∈ d, p.1 ≠ k) : dict_set d k v = d ++ [(k, v)] := by
  induction d with
  | nil => simp [dict_set]
  | cons p rest ih =>
    have hp : p.1 ≠ k := h p (List.mem_cons_self p rest)
    simp only [dict_set, if_neg hp, List.cons_append, List.cons.injEq, true_and]
    exact ih (fun q hq => h q (List.mem_cons_of_mem p hq))

theorem dict_get_ne_nil {α : Type} (d : List (Str × α)) (k : Str) (v : α)
    (h : dict_get d k = some v) : d ≠ [] := by
  intro hd
  subst hd
  simp [dict_get] at h

theorem rstrip_append_of_ne (a b : Str) (h : rstrip b ≠ []) :
    rstrip (a ++ b) = a ++ rstrip b := by
  have hb : b.reverse.dropWhile Char.isWhitespace ≠ [] := by
    intro hx
    apply h
    simp [rstrip, hx]
  simp only [rstrip, List.reverse_append, List.dropWhile_append, hb]
  simp [List.isEmpty_iff, hb]

theorem rstrip_colon_space (k : Str) : rstrip (k ++ [':', ' ']) = k ++ [':'] := by
  have h : rstrip ([':', ' '] : Str) = [':'] := by decide
  calc rstrip (k ++ [':', ' ']) = k ++ rstrip [':', ' '] := by
        exact rstrip_append_of_ne k [':', ' '] (by rw [h]; simp)
    _ = k ++ [':'] := by rw [h]

theorem split_nl_ne_nil (s : Str) : split_nl s ≠ [] := by
  cases s with
  | nil => simp [split_nl]
  | cons c cs =>
    by_cases h : c = '\n'
    · simp [split_nl, h]
    · simp only [split_nl, if_neg h]
      cases split_nl cs <;> simp

theorem split_nl_append (l t : Str) (h : '\n' ∉ l) :
    split_nl (l ++ '\n' :: t) = l :: split_nl t := by
  induction l with
  | nil => simp [split_nl]
  | cons c cs ih =>
    have hc : c ≠ '\n' := by
      intro hx
      exact h (hx ▸ List.mem_cons_self c cs)
    have ih' := ih (fun hx => h (List.mem_cons_of_mem c hx))
    simp only [List.cons_append, split_nl, if_neg hc, List.append_eq]
    rw [ih']

theorem split_nl_join (ls : List Str) (t : Str) (h : ∀ l ∈ ls, '\n' ∉ l) :
    split_nl (join_lines ls ++ t) = ls ++ split_nl t := by
  induction ls with
  | nil => simp [join_lines]
  | cons l rest ih =>
    have hl : '\n' ∉ l := h l (List.mem_cons_self l rest)
    have ih' := ih (fun x hx => h x (List.mem_cons_of_mem l hx))
    have : join_lines (l :: rest) ++ t = l ++ '\n' :: (join_lines rest ++ t) := by
      simp [join_lines]
    rw [this, split_nl_append l (join_lines rest ++ t) hl, ih']
    simp

theorem split_first_colon_append (k rest : Str) (h : ':' ∉ k) :
    split_first_colon (k ++ ':' :: rest) = (k, rest) := by
  induction k with
  | nil => simp [split_first_colon]
  | cons c cs ih =>
    have hc : c ≠ ':' := by
      intro hx
      exact h (hx ▸ List.mem_cons_self c cs)
    have ih' := ih (fun hx => h (List.mem_cons_of_mem c hx))
    simp [split_first_colon, if_neg hc, ih']

theorem clean_pair_iff (k s : Str) :
    clean_pair k (PyVal.pstr s) = true ↔
      (':' ∉ k ∧ '\n' ∉ k ∧ '\n' ∉ s ∧ lstrip s = s ∧ rstrip s = s ∧
       ¬(k.head? = some '[' ∧ s.getLast? = some ']')) := by
  simp [clean_pair, and_assoc]
  tauto

theorem strip_space_cons (s : Str) (hl : lstrip s = s) (hr : rstrip s = s) :
    strip (' ' :: s) = s := by
  by_cases hs : s = []
  · subst hs
    decide
  · have h1 : rstrip (' ' :: s) = ' ' :: s := by
      have := rstrip_append_of_ne [' '] s (by rw [hr]; exact hs)
      simpa [hr] using this
    have h2 : lstrip (' ' :: s) = lstrip s := by
      simp [lstrip, List.dropWhile]
    rw [strip, h1, h2, hl]

theorem process_ser_line (st : ReadState) (k s : Str)
    (h : clean_pair k (PyVal.pstr s) = true) :
    process_line st (k ++ ':' :: ' ' :: s) =
      { st with keywords := dict_set st.keywords k (PyVal.pstr s) } := by
  obtain ⟨hck, hnk, hns, hls, hrs, hh⟩ := (clean_pair_iff k s).mp h
  by_cases hs : s = []
  · subst hs
    have htext : rstrip (k ++ ':' :: ' ' :: []) = k ++ [':'] := rstrip_colon_space k
    have hne : (k ++ [':'] : Str) ≠ [] := by simp
    have hhead : is_block_header (k ++ [':']) = false := by
      have hlast : (k ++ [':'] : Str).getLast? = some ':' :=
        List.getLast?_append_cons k ':' []
      simp [is_block_header, hlast]
    have hmem : ':' ∈ k ++ [':'] := by simp
    have hsplit : split_first_colon (k ++ [':']) = (k, []) :=
      split_first_colon_append k [] hck
    simp only [process_line, htext, if_neg hne, hhead, Bool.false_eq_true, if_false,
      add_data_line, parse_data_line, if_pos hmem, hsplit]
    rfl
  · have hrs' : rstrip s ≠ [] := by rw [hrs]; exact hs
    have hline : (k ++ ':' :: ' ' :: s : Str) = (k ++ [':', ' ']) ++ s := by simp
    have htext : rstrip (k ++ ':' :: ' ' :: s) = k ++ ':' :: ' ' :: s := by
      rw [hline, rstrip_append_of_ne _ s hrs', hrs, ← hline]
    have hne : (k ++ ':' :: ' ' :: s : Str) ≠ [] := by simp
    have hlast : (k ++ ':' :: ' ' :: s : Str).getLast? = s.getLast? := by
      rw [hline]
      exact List.getLast?_append_of_ne_nil _ hs
    have hhead : is_block_header (k ++ ':' :: ' ' :: s) = false := by
      by_cases hk : k.head? = some '['
      · have h1 : s.getLast? ≠ some ']' := fun hx => hh ⟨hk, hx⟩
        simp only [is_block_header, hlast]
        simp [h1]
      · have h2 : (k ++ ':' :: ' ' :: s : Str).head? ≠ some '[' := by
          cases k with
          | nil => simp
          | cons c k' => simpa using hk
        simp [is_block_header, h2]
        intro _ hk'
        exact absurd hk' hk
    have hmem : ':' ∈ k ++ ':' :: ' ' :: s := by simp
    have hsplit : split_first_colon (k ++ ':' :: ' ' :: s) = (k, ' ' :: s) :=
      split_first_colon_append k (' ' :: s) hck
    simp only [process_line, htext, if_neg hne, hhead, Bool.false_eq_true, if_false,
      add_data_line, parse_data_line, if_pos hmem, hsplit]
    rw [strip_space_cons s hls hrs]

theorem process_header_line (st : ReadState) (nm : Str) :
    process_line st ('[' :: nm ++ [']']) =
      { blocks := commit_blocks st, keywords := [],
        current_block := some nm, first_keywords := upd_first st } := by
  have htext : rstrip ('[' :: nm ++ [']']) = '[' :: nm ++ [']'] := by
    have h1 : rstrip ([']'] : Str) = [']'] := by decide
    have := rstrip_append_of_ne ('[' :: nm) [']'] (by rw [h1]; simp)
    simpa [h1] using this
  have hne : ('[' :: nm ++ [']'] : Str) ≠ [] := by simp
  have hlast : ('[' :: nm ++ [']'] : Str).getLast? = some ']' :=
    List.getLast?_append_cons ('[' :: nm) ']' []
  have hhead : is_block_header ('[' :: nm ++ [']']) = true := by
    have hlen : ('[' :: nm ++ [']'] : Str).length = nm.length + 2 := by simp
    simp only [is_block_header, decide_eq_true_eq]
    refine ⟨by rw [hlen]; omega, rfl, hlast⟩
  have hname : (('[' :: nm ++ [']'] : Str).drop 1).dropLast = nm := by
    simp
  simp only [process_line, htext, if_neg hne, hhead, if_true]
  rw [hname]

theorem process_line_first (st : ReadState) (l : Str) (f : KW)
    (h : st.first_keywords = some f) :
    (process_line st l).first_keywords = some f := by
  simp only [process_line]
  by_cases h1 : rstrip l = []
  · simp [h1, h]
  · by_cases h2 : is_block_header (rstrip l) = true
    · simp [h1, h2, upd_first, h]
    · simp [h1, h2, h]

theorem foldl_first_mono (L : List Str) (st : ReadState) (f : KW)
    (h : st.first_keywords = some f) :
    (L.foldl process_line st).first_keywords = some f := by
  induction L generalizing st with
  | nil => simpa using h
  | cons l rest ih => exact ih _ (process_line_first st l f h)

theorem fold_no_header (L : List Str) (st : ReadState)
    (h : ∀ l ∈ L, is_block_header (rstrip l) = false) :
    L.foldl process_line st = { st with keywords := L.foldl data_step st.keywords } := by
  induction L generalizing st with
  | nil => rfl
  | cons l rest ih =>
    have hl := h l (List.mem_cons_self l rest)
    have hrest := fun x hx => h x (List.mem_cons_of_mem l hx)
    have hstep : process_line st l = { st with keywords := data_step st.keywords l } := by
      simp only [process_line, data_step]
      by_cases h1 : rstrip l = []
      · simp [h1]
      · simp [h1, hl]
    calc (l :: rest).foldl process_line st
        = rest.foldl process_line (process_line st l) := rfl
      _ = rest.foldl process_line { st with keywords := data_step st.keywords l } := by
          rw [hstep]
      _ = { st with keywords := rest.foldl data_step (data_step st.keywords l) } :=
          ih _ hrest
      _ = { st with keywords := (l :: rest).foldl data_step st.keywords } := rfl

theorem clean_kw_cons (k : Str) (v : PyVal) (rest : KW)
    (h : clean_kw ((k, v) :: rest) = true) :
    clean_pair k v = true ∧ clean_kw rest = true ∧ ∀ p ∈ rest, p.1 ≠ k := by
  simp only [clean_kw, distinct_keys, List.all_cons, Bool.and_eq_true,
    Bool.not_eq_true'] at h
  obtain ⟨⟨hany, hdist⟩, hp, hall⟩ := h
  refine ⟨hp, ?_, ?_⟩
  · simp only [clean_kw, Bool.and_eq_true]
    exact ⟨hdist, hall⟩
  · intro p hp'
    have := List.any_eq_false.mp hany p hp'
    simpa using this

theorem clean_pair_pstr (k : Str) (v : PyVal) (h : clean_pair k v = true) :
    ∃ s, v = PyVal.pstr s := by
  cases v with
  | pstr s => exact ⟨s, rfl⟩
  | pnone => simp [clean_pair] at h
  | bad => simp [clean_pair] at h

theorem keywords_body_clean (kw : KW) (h : clean_kw kw = true) :
    keywords_body kw = Except.ok (ser_body kw) := by
  induction kw with
  | nil => rfl
  | cons p rest ih =>
    obtain ⟨k, v⟩ := p
    obtain ⟨hp, hrest, _⟩ := clean_kw_cons k v rest h
    obtain ⟨s, rfl⟩ := clean_pair_pstr k v hp
    have hck : ':' ∉ k := ((clean_pair_iff k s).mp hp).1
    simp [keywords_body, if_neg hck, py_str, ih hrest, ser_body]

theorem ins_all_cons (d : KW) (k : Str) (v : PyVal) (rest : KW) :
    ins_all d ((k, v) :: rest) = ins_all (dict_set d k v) rest := rfl

theorem ins_all_fresh (kw : KW) : ∀ d : KW, distinct_keys kw = true →
    (∀ p ∈ kw, ∀ q ∈ d, q.1 ≠ p.1) → ins_all d kw = d ++ kw := by
  induction kw with
  | nil =>
    intro d _ _
    simp [ins_all]
  | cons p rest ih =>
    intro d hd hf
    obtain ⟨k, v⟩ := p
    simp only [distinct_keys, Bool.and_eq_true, Bool.not_eq_true'] at hd
    obtain ⟨hany, hdist⟩ := hd
    have hset : dict_set d k v = d ++ [(k, v)] :=
      dict_set_fresh d k v (fun q hq => hf (k, v) (List.mem_cons_self _ _) q hq)
    have hfresh : ∀ p ∈ rest, ∀ q ∈ d ++ [(k, v)], q.1 ≠ p.1 := by
      intro p hp q hq
      rcases List.mem_append.mp hq with hq | hq
      · exact hf p (List.mem_cons_of_mem _ hp) q hq
      · have hqe : q = (k, v) := by simpa using hq
        subst hqe
        have := List.any_eq_false.mp hany p hp
        simp only [beq_iff_eq] at this
        exact fun hx => this (hx.symm ▸ rfl)
    rw [ins_all_cons, hset, ih (d ++ [(k, v)]) hdist hfresh]
    simp

theorem fold_ser_body (kw : KW) (h : clean_kw kw = true) :
    ∀ (st : ReadState) (t : Str),
      (split_nl (ser_body kw ++ t)).foldl process_line st =
        (split_nl t).foldl process_line { st with keywords := ins_all st.keywords kw } := by
  induction kw with
  | nil =>
    intro st t
    simp [ser_body, ins_all]
  | cons p rest ih =>
    intro st t
    obtain ⟨k, v⟩ := p
    obtain ⟨hp, hrest, _⟩ := clean_kw_cons k v rest h
    obtain ⟨s, rfl⟩ := clean_pair_pstr k v hp
    obtain ⟨hck, hnk, hns, hls, hrs, hh⟩ := (clean_pair_iff k s).mp hp
    have hmem : '\n' ∉ (k ++ ':' :: ' ' :: s : Str) := by
      intro hx
      rcases List.mem_append.mp hx with hx | hx
      · exact hnk hx
      · rcases List.mem_cons.mp hx with h1 | hx
        · exact absurd h1 (by decide)
        · rcases List.mem_cons.mp hx with h1 | hx
          · exact absurd h1 (by decide)
          · exact hns hx
    have hcontent : ser_body ((k, PyVal.pstr s) :: rest) ++ t =
        (k ++ ':' :: ' ' :: s) ++ '\n' :: (ser_body rest ++ t) := by
      simp [ser_body, py_str]
    rw [hcontent, split_nl_append _ _ hmem, List.foldl_cons,
      process_ser_line st k s hp, ih hrest _ t]
    rfl

theorem clean_kw_distinct (kw : KW) (h : clean_kw kw = true) : distinct_keys kw = true := by
  simp only [clean_kw, Bool.and_eq_true] at h
  exact h.1

theorem read_default_no_blocks (content : Str) (D : KW)
    (hst : (split_nl content).foldl process_line ⟨[], [], none, none⟩ = ⟨[], D, none, none⟩) :
    read_keywords_default (some content) = D := by
  simp [read_keywords_default, read_final, hst]

theorem read_default_of_first (content : Str) (st : ReadState) (f : KW)
    (hst : (split_nl content).foldl process_line ⟨[], [], none, none⟩ = st)
    (hf : st.first_keywords = some f) :
    read_keywords_default (some content) = f := by
  simp [read_keywords_default, read_final, hst, hf]

theorem read_all_of_fold (content : Str) (st : ReadState)
    (hst : (split_nl content).foldl process_line ⟨[], [], none, none⟩ = st) :
    read_keywords_all (some content) = commit_blocks st := by
  simp [read_keywords_all, read_final, hst]

theorem read_sub_of_fold (content : Str) (sub : Str) (st : ReadState)
    (hst : (split_nl content).foldl process_line ⟨[], [], none, none⟩ = st) :
    read_keywords_sub (some content) sub = dict_get (commit_blocks st) sub := by
  simp [read_keywords_sub, read_final, hst]

theorem is_block_header_false (k : Str)
    (h : ¬(k.head? = some '[' ∧ k.getLast? = some ']')) :
    is_block_header k = false := by
  simp only [is_block_header, decide_eq_false_iff_not]
  intro hx
  exact h ⟨hx.2.1, hx.2.2⟩

theorem process_bare_line (st : ReadState) (k : Str)
    (h1 : ':' ∉ k) (h3 : lstrip k = k) (h4 : rstrip k = k) (h5 : k ≠ [])
    (h6 : is_block_header k = false) :
    process_line st k = { st with keywords := dict_set st.keywords k PyVal.pnone } := by
  have hstrip : strip k = k := by rw [strip, h4, h3]
  simp only [process_line, h4, if_neg h5, h6, Bool.false_eq_true, if_false,
    add_data_line, parse_data_line, if_neg h1, hstrip]

theorem ins_all_nil_left (kw : KW) (h : clean_kw kw = true) : ins_all [] kw = kw := by
  have := ins_all_fresh kw [] (clean_kw_distinct kw h) (by intro p _ q hq; simp at hq)
  simpa using this

theorem read_final_ser_body (kw : KW) (h : clean_kw kw = true) :
    read_final (ser_body kw) = ([], kw) := by
  have hfold := fold_ser_body kw h ⟨[], [], none, none⟩ []
  rw [List.append_nil] at hfold
  have hst : (split_nl (ser_body kw)).foldl process_line ⟨[], [], none, none⟩ =
      ⟨[], kw, none, none⟩ := by
    rw [hfold]
    have hins := ins_all_nil_left kw h
    simp only [split_nl, List.foldl_cons, List.foldl_nil]
    simp [process_line, rstrip, hins]
  simp [read_final, hst, commit_blocks]

/-- C1: the claim that a failed validation in `write_keywords` leaves the
on-disk keyword file unchanged is false: `file(filename, 'wt')` truncates
the file before `_keywords_to_string` validates anything.  Concretely,
writing a dictionary whose key contains `:` over a file holding `x: 1`
fails with a validation error and leaves the file empty, not `x: 1`. -/
theorem failed_write_mutates_file :
    write_keywords [("a:b".toList, PyVal.pstr "c".toList)] none (some "x: 1\n".toList) =
        WriteResult.err [] ∧
      ([] : Str) ≠ "x: 1\n".toList := by
  refine ⟨by decide, by decide⟩

/-- C1 (amended): when keyword validation fails, `write_keywords` does
not leave the file as it was — the truncating open precedes validation.
In every single-block path (simple existing content, or sublayer omitted
or empty) the failed call leaves the file empty. -/
theorem failed_validation_leaves_file_empty (kw : KW) (sub : Option Str)
    (disk : Option Str) (e : String)
    (herr : keywords_body kw = Except.error e)
    (hpath : sub = none ∨ sub = some [] ∨ read_keywords_all disk = []) :
    write_keywords kw sub disk = WriteResult.err [] := by
  have hkts : ∀ so : Option Str, keywords_to_string kw so = Except.error e := by
    intro so
    simp [keywords_to_string, herr]
  by_cases hex : read_keywords_all disk = []
  · simp [write_keywords, hex, hkts sub]
  · rcases hpath with h | h | h
    · subst h
      simp [write_keywords, hex, hkts none]
    · subst h
      simp [write_keywords, hex, hkts none]
    · exact absurd h hex

theorem failed_validation_leaves_file_empty_witness :
    keywords_body [("a:b".toList, PyVal.pstr "c".toList)] =
        Except.error "Key in keywords dictionary must not contain a colon" ∧
      write_keywords [("a:b".toList, PyVal.pstr "c".toList)] (some []) (some "k: v\n".toList) =
        WriteResult.err [] :=
  ⟨by decide,
   failed_validation_leaves_file_empty _ (some []) (some "k: v\n".toList)
     "Key in keywords dictionary must not contain a colon"
     (by decide) (Or.inr (Or.inl rfl))⟩

/-- C4: the bare-key round trip fails on the code: writing the
dictionary with key `foo` and absent value serialises `str(None)`, i.e.
the line `foo: None`, so reading back yields the string value `"None"`,
not an absent value. -/
theorem bare_key_round_trip_fails :
    write_keywords [("foo".toList, PyVal.pnone)] none none =
        WriteResult.ok "foo: None\n".toList ∧
      read_keywords_default (some "foo: None\n".toList) =
        [("foo".toList, PyVal.pstr "None".toList)] ∧
      PyVal.pstr "None".toList ≠ PyVal.pnone := by
  refine ⟨by decide, by decide, by decide⟩

/-- C4 (amended): a bare-key LINE in a file reads back as the key with
an absent value, but `write_keywords` never produces a bare line: an
absent (`None`) value is serialised as the display string `None`, so the
write-then-read round trip yields the key bound to the string `"None"`
rather than to an absent value. -/
theorem bare_key_write_read (k : Str)
    (h1 : ':' ∉ k) (h2 : '\n' ∉ k) (h3 : lstrip k = k) (h4 : rstrip k = k)
    (h5 : k ≠ []) (h6 : ¬(k.head? = some '[' ∧ k.getLast? = some ']')) :
    read_keywords_default (some (k ++ ['\n'])) = [(k, PyVal.pnone)] ∧
    write_keywords [(k, PyVal.pnone)] none none =
      WriteResult.ok (k ++ ':' :: ' ' :: ("None".toList ++ ['\n'])) ∧
    read_keywords_default (some (k ++ ':' :: ' ' :: ("None".toList ++ ['\n']))) =
      [(k, PyVal.pstr "None".toList)] := by
  refine ⟨?_, ?_, ?_⟩
  · have hsplit : split_nl (k ++ ['\n']) = [k, []] := by
      have := split_nl_append k [] h2
      simpa [split_nl] using this
    have hhdr : is_block_header k = false := is_block_header_false k h6
    have hstep := process_bare_line ⟨[], [], none, none⟩ k h1 h3 h4 h5 hhdr
    have hst : (split_nl (k ++ ['\n'])).foldl process_line ⟨[], [], none, none⟩ =
        ⟨[], [(k, PyVal.pnone)], none, none⟩ := by
      rw [hsplit, List.foldl_cons, hstep, List.foldl_cons, List.foldl_nil]
      rfl
    simp [read_keywords_default, read_final, hst]
  · simp [write_keywords, read_keywords_all, keywords_to_string, keywords_body,
      if_neg h1, py_str]
  · have hclean : clean_pair k (PyVal.pstr "None".toList) = true := by
      refine (clean_pair_iff k "None".toList).mpr ⟨h1, h2, by decide, by decide, by decide, ?_⟩
      intro hx
      exact absurd hx.2 (by decide)
    have hcontent : (k ++ ':' :: ' ' :: ("None".toList ++ ['\n']) : Str) =
        (k ++ ':' :: ' ' :: "None".toList) ++ '\n' :: [] := by simp
    have hmem : '\n' ∉ (k ++ ':' :: ' ' :: "None".toList : Str) := by
      intro hx
      rcases List.mem_append.mp hx with hx | hx
      · exact h2 hx
      · rcases List.mem_cons.mp hx with hc | hx
        · exact absurd hc (by decide)
        · rcases List.mem_cons.mp hx with hc | hx
          · exact absurd hc (by decide)
          · exact absurd hx (by decide)
    have hst : (split_nl ((k ++ ':' :: ' ' :: "None".toList) ++ '\n' :: [])).foldl
        process_line ⟨[], [], none, none⟩ =
        ⟨[], [(k, PyVal.pstr "None".toList)], none, none⟩ := by
      rw [split_nl_append _ _ hmem, List.foldl_cons,
        process_ser_line ⟨[], [], none, none⟩ k "None".toList hclean]
      rfl
    rw [hcontent]
    exact read_default_no_blocks _ _ hst

theorem bare_key_write_read_witness :
    read_keywords_default (some ("foo".toList ++ ['\n'])) = [("foo".toList, PyVal.pnone)] ∧
    write_keywords [("foo".toList, PyVal.pnone)] none none =
      WriteResult.ok ("foo".toList ++ ':' :: ' ' :: ("None".toList ++ ['\n'])) :=
  ⟨(bare_key_write_read "foo".toList (by decide) (by decide) (by decide) (by decide)
      (by decide) (by decide)).1,
   (bare_key_write_read "foo".toList (by decide) (by decide) (by decide) (by decide)
      (by decide) (by decide)).2.1⟩

/-- C2: one concrete consequence the claim overstates: collapsing a
multilayer file with a valid dictionary whose value is absent (`None`)
succeeds and discards the other sublayers, but a subsequent read does
not find the dictionary itself — it finds the value turned into the
string `"None"`. -/
theorem collapse_read_back_not_new_kw :
    (dict_get (read_keywords_all (some "[x]\na: 1\n\n[y]\nb: 2\n".toList)) "x".toList).isSome
      = true ∧
    (dict_get (read_keywords_all (some "[x]\na: 1\n\n[y]\nb: 2\n".toList)) "y".toList).isSome
      = true ∧
    write_keywords [("a".toList, PyVal.pnone)] none
        (some "[x]\na: 1\n\n[y]\nb: 2\n".toList) = WriteResult.ok "a: None\n".toList ∧
    read_keywords_default (some "a: None\n".toList) =
      [("a".toList, PyVal.pstr "None".toList)] ∧
    [("a".toList, PyVal.pstr "None".toList)] ≠ [("a".toList, PyVal.pnone)] := by
  refine ⟨by decide, by decide, by decide, by decide, by decide⟩

/-- C2 (amended): writing with `sublayer=None` over a multilayer file
(here: one whose block map contains sublayers `nx` and `ny`) replaces
the whole file with the single unnamed rendered block of the new
dictionary; no named block survives.  A subsequent read returns exactly
the new dictionary provided its entries round-trip (string values
without newlines or surrounding whitespace, no header-shaped line);
otherwise it returns the reparse of the rendered block. -/
theorem collapse_replaces_multilayer_file (c nx ny : Str) (kw : KW) (b : Str)
    (hx : (dict_get (read_keywords_all (some c)) nx).isSome = true)
    (hy : (dict_get (read_keywords_all (some c)) ny).isSome = true)
    (hok : keywords_body kw = Except.ok b) :
    write_keywords kw none (some c) = WriteResult.ok b ∧
    (clean_kw kw = true →
      read_keywords_all (some b) = [] ∧ read_keywords_default (some b) = kw) := by
  constructor
  · have hne : read_keywords_all (some c) ≠ [] := by
      intro h0
      rw [h0] at hx
      simp [dict_get] at hx
    simp [write_keywords, hne, keywords_to_string, hok]
  · intro hcl
    have hb : b = ser_body kw := by
      have h2 := keywords_body_clean kw hcl
      rw [hok] at h2
      exact Except.ok.inj h2
    subst hb
    have hfin := read_final_ser_body kw hcl
    constructor
    · simp [read_keywords_all, hfin]
    · simp [read_keywords_default, hfin]

theorem collapse_replaces_multilayer_file_witness :
    write_keywords [("c".toList, PyVal.pstr "3".toList)] none
        (some "[x]\na: 1\n\n[y]\nb: 2\n".toList) = WriteResult.ok "c: 3\n".toList ∧
    read_keywords_all (some "c: 3\n".toList) = [] ∧
    read_keywords_default (some "c: 3\n".toList) = [("c".toList, PyVal.pstr "3".toList)] := by
  have h := collapse_replaces_multilayer_file "[x]\na: 1\n\n[y]\nb: 2\n".toList
    "x".toList "y".toList [("c".toList, PyVal.pstr "3".toList)] "c: 3\n".toList
    (by decide) (by decide) (by decide)
  exact ⟨h.1, (h.2 (by decide)).1, (h.2 (by decide)).2⟩

/-- C5: reading with neither `sublayer` nor `all_blocks` does NOT return
the first block's keywords whenever a header is present: if any keyword
lines precede the first header, those pre-header keywords are what the
call returns.  Here the file `a: 1 / [x] / b: 2` has a header, yet the
call returns the pre-header mapping, not block `x`'s. -/
theorem default_read_prefers_preheader :
    read_keywords_default (some "a: 1\n[x]\nb: 2\n".toList) =
        [("a".toList, PyVal.pstr "1".toList)] ∧
      read_keywords_sub (some "a: 1\n[x]\nb: 2\n".toList) "x".toList =
        some [("b".toList, PyVal.pstr "2".toList)] ∧
      [("a".toList, PyVal.pstr "1".toList)] ≠ [("b".toList, PyVal.pstr "2".toList)] := by
  refine ⟨by decide, by decide, by decide⟩

/-- C5 (amended): the plain read returns the first non-empty keyword
batch committed at a header boundary: when data lines precede the first
header, their mapping is returned no matter what follows; the pre-header
fallback is therefore used whenever pre-header keyword lines exist, not
only when the file has no headers.  When the file has no header lines at
all, the read returns the mapping accumulated from all of its data
lines. -/
theorem default_read_first_committed_batch :
    (∀ (kw : KW) (nm t : Str), clean_kw kw = true → kw ≠ [] → '\n' ∉ nm →
      read_keywords_default
          (some (ser_body kw ++ ('[' :: nm ++ [']']) ++ '\n' :: t)) = kw) ∧
    (∀ content : Str, (∀ l ∈ split_nl content, is_block_header (rstrip l) = false) →
      read_keywords_default (some content) = (split_nl content).foldl data_step []) := by
  constructor
  · intro kw nm t hcl hne hnm
    have hmem : '\n' ∉ ('[' :: nm ++ [']'] : Str) := by
      intro hx
      rcases List.mem_cons.mp hx with h1 | hx
      · exact absurd h1 (by decide)
      · rcases List.mem_append.mp hx with hx | hx
        · exact hnm hx
        · exact absurd hx (by decide)
    have hassoc : ser_body kw ++ ('[' :: nm ++ [']']) ++ '\n' :: t =
        ser_body kw ++ (('[' :: nm ++ [']']) ++ '\n' :: t) := by
      simp
    have hfold := fold_ser_body kw hcl ⟨[], [], none, none⟩ (('[' :: nm ++ [']']) ++ '\n' :: t)
    have hins := ins_all_nil_left kw hcl
    have hsplit : split_nl ((('[' :: nm ++ [']']) ++ '\n' :: t) : Str) =
        ('[' :: nm ++ [']']) :: split_nl t := split_nl_append _ t hmem
    have hst : (split_nl (ser_body kw ++ ('[' :: nm ++ [']']) ++ '\n' :: t)).foldl
        process_line ⟨[], [], none, none⟩ =
        (split_nl t).foldl process_line ⟨[], [], some nm, some kw⟩ := by
      rw [hassoc, hfold, hsplit, List.foldl_cons]
      congr 1
      have h1 : process_line (⟨[], ins_all ([] : KW) kw, none, none⟩ : ReadState)
          ('[' :: nm ++ [']']) = ⟨[], [], some nm, some kw⟩ := by
        rw [process_header_line]
        rw [hins]
        simp [commit_blocks, upd_first, hne]
      exact h1
    have hf : ((split_nl t).foldl process_line
        (⟨[], [], some nm, some kw⟩ : ReadState)).first_keywords = some kw :=
      foldl_first_mono (split_nl t) _ kw rfl
    exact read_default_of_first _ _ kw hst hf
  · intro content h
    have hfold := fold_no_header (split_nl content) ⟨[], [], none, none⟩ h
    exact read_default_no_blocks content _ hfold

theorem default_read_first_committed_batch_witness :
    read_keywords_default
        (some (ser_body [("a".toList, PyVal.pstr "1".toList)] ++
          ('[' :: "x".toList ++ [']']) ++ '\n' :: "b: 2\n".toList)) =
      [("a".toList, PyVal.pstr "1".toList)] ∧
    read_keywords_default (some "p: 1\nq: 2\n".toList) =
      (split_nl "p: 1\nq: 2\n".toList).foldl data_step [] :=
  ⟨default_read_first_committed_batch.1 [("a".toList, PyVal.pstr "1".toList)]
      "x".toList "b: 2\n".toList (by decide) (by decide) (by decide),
   default_read_first_committed_batch.2 "p: 1\nq: 2\n".toList (by decide)⟩

theorem read_default_of_fold_none (content : Str) (bl : Blocks) (D : KW) (cb : Option Str)
    (hst : (split_nl content).foldl process_line ⟨[], [], none, none⟩ = ⟨bl, D, cb, none⟩) :
    read_keywords_default (some content) = D := by
  simp only [read_keywords_default, read_final, hst]

theorem commit_blocks_named (bl : Blocks) (D : KW) (nm : Str) (fk : Option KW)
    (h : D ≠ []) :
    commit_blocks ⟨bl, D, some nm, fk⟩ = dict_set bl nm D := by
  simp [commit_blocks, h]

theorem data_fold_get_ne (L : List Str) (k : Str)
    (h : ∀ l ∈ L, rstrip l = [] ∨ (parse_data_line (rstrip l)).1 ≠ k) :
    ∀ d : KW, dict_get (L.foldl data_step d) k = dict_get d k := by
  induction L with
  | nil => intro d; rfl
  | cons l rest ih =>
    intro d
    have hl := h l (List.mem_cons_self l rest)
    have hrest := fun x hx => h x (List.mem_cons_of_mem l hx)
    rw [List.foldl_cons, ih hrest]
    rcases hl with hl | hl
    · simp [data_step, hl]
    · by_cases hb : rstrip l = []
      · simp [data_step, hb]
      · simp only [data_step, if_neg hb, add_data_line]
        exact dict_get_set_other _ _ _ _ (Ne.symm hl)

/-- C10: within a single block, a key occurring on several data lines
ends up bound to the value of the LAST such line; earlier occurrences
are silently overwritten.  This holds for the block map
(`all_blocks=True`), for the named-sublayer read, and for the plain
read. -/
theorem duplicate_key_last_wins (nm : Str) (A B Cs : List Str) (l1 l2 k : Str)
    (v1 v2 : PyVal)
    (hnm : '\n' ∉ nm)
    (hall : ∀ l ∈ A ++ [l1] ++ B ++ [l2] ++ Cs,
      '\n' ∉ l ∧ is_block_header (rstrip l) = false)
    (h1 : rstrip l1 ≠ []) (hp1 : parse_data_line (rstrip l1) = (k, v1))
    (h2 : rstrip l2 ≠ []) (hp2 : parse_data_line (rstrip l2) = (k, v2))
    (hC : ∀ l ∈ Cs, rstrip l = [] ∨ (parse_data_line (rstrip l)).1 ≠ k) :
    ∃ D : KW,
      read_keywords_all (some (('[' :: nm ++ [']']) ++ '\n' ::
          join_lines (A ++ [l1] ++ B ++ [l2] ++ Cs))) = [(nm, D)] ∧
      read_keywords_sub (some (('[' :: nm ++ [']']) ++ '\n' ::
          join_lines (A ++ [l1] ++ B ++ [l2] ++ Cs))) nm = some D ∧
      read_keywords_default (some (('[' :: nm ++ [']']) ++ '\n' ::
          join_lines (A ++ [l1] ++ B ++ [l2] ++ Cs))) = D ∧
      dict_get D k = some v2 := by
  have hmemh : '\n' ∉ ('[' :: nm ++ [']'] : Str) := by
    intro hx
    rcases List.mem_cons.mp hx with hc | hx
    · exact absurd hc (by decide)
    · rcases List.mem_append.mp hx with hx | hx
      · exact hnm hx
      · exact absurd hx (by decide)
  have hsplit1 : split_nl (('[' :: nm ++ [']']) ++ '\n' ::
      join_lines (A ++ [l1] ++ B ++ [l2] ++ Cs)) =
      ('[' :: nm ++ [']']) :: split_nl (join_lines (A ++ [l1] ++ B ++ [l2] ++ Cs)) :=
    split_nl_append _ _ hmemh
  have hnl : ∀ l ∈ A ++ [l1] ++ B ++ [l2] ++ Cs, '\n' ∉ l := fun l hl => (hall l hl).1
  have hsplit2 : split_nl (join_lines (A ++ [l1] ++ B ++ [l2] ++ Cs)) =
      (A ++ [l1] ++ B ++ [l2] ++ Cs) ++ [[]] := by
    have h0 := split_nl_join (A ++ [l1] ++ B ++ [l2] ++ Cs) [] hnl
    simpa [split_nl] using h0
  have hnoheader : ∀ l ∈ (A ++ [l1] ++ B ++ [l2] ++ Cs) ++ [[]],
      is_block_header (rstrip l) = false := by
    intro l hl
    rcases List.mem_append.mp hl with hl | hl
    · exact (hall l hl).2
    · have he : l = [] := by simpa using hl
      subst he
      decide
  have hstep : process_line ⟨[], [], none, none⟩ ('[' :: nm ++ [']']) =
      ⟨[], [], some nm, none⟩ := by
    rw [process_header_line]
    simp [commit_blocks, upd_first]
  have hfold2 := fold_no_header ((A ++ [l1] ++ B ++ [l2] ++ Cs) ++ [[]])
    ⟨[], [], some nm, none⟩ hnoheader
  have hDfull : ((A ++ [l1] ++ B ++ [l2] ++ Cs) ++ [[]]).foldl data_step ([] : KW) =
      (A ++ [l1] ++ B ++ [l2] ++ Cs).foldl data_step ([] : KW) := by
    rw [List.foldl_append]
    rfl
  have hd2 : dict_get ((A ++ [l1] ++ B ++ [l2] ++ Cs).foldl data_step ([] : KW)) k =
      some v2 := by
    rw [List.foldl_append, data_fold_get_ne Cs k hC, List.foldl_append]
    show dict_get (data_step ((A ++ [l1] ++ B).foldl data_step []) l2) k = some v2
    simp only [data_step, if_neg h2, add_data_line, hp2]
    exact dict_get_set_self _ _ _
  have hDne : (A ++ [l1] ++ B ++ [l2] ++ Cs).foldl data_step ([] : KW) ≠ [] :=
    dict_get_ne_nil _ k v2 hd2
  have hst : (split_nl (('[' :: nm ++ [']']) ++ '\n' ::
      join_lines (A ++ [l1] ++ B ++ [l2] ++ Cs))).foldl process_line
      ⟨[], [], none, none⟩ =
      ⟨[], (A ++ [l1] ++ B ++ [l2] ++ Cs).foldl data_step ([] : KW), some nm, none⟩ := by
    rw [hsplit1, List.foldl_cons, hstep, hsplit2, hfold2]
    congr 1
  refine ⟨(A ++ [l1] ++ B ++ [l2] ++ Cs).foldl data_step ([] : KW), ?_, ?_, ?_, hd2⟩
  · rw [read_all_of_fold _ _ hst, commit_blocks_named _ _ _ _ hDne]
    rfl
  · rw [read_sub_of_fold _ _ _ hst, commit_blocks_named _ _ _ _ hDne]
    simp [dict_set, dict_get]
  · exact read_default_of_fold_none _ _ _ _ hst

theorem duplicate_key_last_wins_witness :
    ∃ D : KW,
      read_keywords_all (some (('[' :: "h".toList ++ [']']) ++ '\n' ::
          join_lines ([] ++ ["k: 1".toList] ++ [] ++ ["k: 2".toList] ++ ["j: 3".toList]))) =
        [("h".toList, D)] ∧
      read_keywords_sub (some (('[' :: "h".toList ++ [']']) ++ '\n' ::
          join_lines ([] ++ ["k: 1".toList] ++ [] ++ ["k: 2".toList] ++ ["j: 3".toList])))
          "h".toList = some D ∧
      read_keywords_default (some (('[' :: "h".toList ++ [']']) ++ '\n' ::
          join_lines ([] ++ ["k: 1".toList] ++ [] ++ ["k: 2".toList] ++ ["j: 3".toList]))) =
        D ∧
      dict_get D "k".toList = some (PyVal.pstr "2".toList) :=
  duplicate_key_last_wins "h".toList [] [] ["j: 3".toList] "k: 1".toList "k: 2".toList
    "k".toList (PyVal.pstr "1".toList) (PyVal.pstr "2".toList)
    (by decide) (by decide) (by decide) (by decide) (by decide) (by decide) (by decide)

theorem header_line_no_nl (nm : Str) (h : '\n' ∉ nm) :
    '\n' ∉ ('[' :: nm ++ [']'] : Str) := by
  intro hx
  rcases List.mem_cons.mp hx with hc | hx
  · exact absurd hc (by decide)
  · rcases List.mem_append.mp hx with hx | hx
    · exact h hx
    · exact absurd hx (by decide)

theorem process_header_from_init (nm : Str) :
    process_line ⟨[], [], none, none⟩ ('[' :: nm ++ [']']) = ⟨[], [], some nm, none⟩ := by
  rw [process_header_line]
  simp [commit_blocks, upd_first]

theorem process_blank (st : ReadState) : process_line st [] = st := rfl

/-- C3: the multilayer round trip fails as stated when one of the
dictionaries is empty (a valid dictionary whose keys and values satisfy
all the stated conditions vacuously): an empty block is never committed
by the parser, so after writing sublayer `x` with the empty dictionary
and sublayer `y` with `a: 1`, the block `x` is gone — the second write
even classifies the file as simple and discards the `x` header. -/
theorem multilayer_round_trip_fails_empty_dict :
    write_keywords [] (some "x".toList) none = WriteResult.ok "[x]\n".toList ∧
    write_keywords [("a".toList, PyVal.pstr "1".toList)] (some "y".toList)
        (some "[x]\n".toList) = WriteResult.ok "[y]\na: 1\n".toList ∧
    dict_get (read_keywords_all (some "[y]\na: 1\n".toList)) "x".toList = none := by
  refine ⟨by decide, by decide, by decide⟩

/-- C3 (amended): writing sublayer `nx` to a fresh file and then
sublayer `ny` to the same file round-trips: reading everything back
gives exactly the two blocks with their dictionaries, and the
`sublayer=nx` read gives the first dictionary alone — provided both
dictionaries are non-empty and their entries are hygienic (keys without
colons or newlines, string values without newlines or surrounding
whitespace, no line shaped like a `[...]` header). -/
theorem multilayer_round_trip (nx ny : Str) (kx ky : KW)
    (hny : ny ≠ []) (hxy : nx ≠ ny)
    (hnlx : '\n' ∉ nx) (hnly : '\n' ∉ ny)
    (hclx : clean_kw kx = true) (hcly : clean_kw ky = true)
    (hkx : kx ≠ []) (hky : ky ≠ []) :
    ∃ c2 : Str,
      write_keywords kx (some nx) none =
        WriteResult.ok (('[' :: nx ++ [']']) ++ '\n' :: ser_body kx) ∧
      write_keywords ky (some ny) (some (('[' :: nx ++ [']']) ++ '\n' :: ser_body kx)) =
        WriteResult.ok c2 ∧
      read_keywords_all (some c2) = [(nx, kx), (ny, ky)] ∧
      read_keywords_sub (some c2) nx = some kx := by
  have hbx := keywords_body_clean kx hclx
  have hby := keywords_body_clean ky hcly
  have hktsx : keywords_to_string kx (some nx) =
      Except.ok (('[' :: nx ++ [']']) ++ '\n' :: ser_body kx) := by
    simp [keywords_to_string, hbx]
  have hktsy : keywords_to_string ky (some ny) =
      Except.ok (('[' :: ny ++ [']']) ++ '\n' :: ser_body ky) := by
    simp [keywords_to_string, hby]
  have hmemx : '\n' ∉ ('[' :: nx ++ [']'] : Str) := header_line_no_nl nx hnlx
  have hmemy : '\n' ∉ ('[' :: ny ++ [']'] : Str) := header_line_no_nl ny hnly
  have hw1 : write_keywords kx (some nx) none =
      WriteResult.ok (('[' :: nx ++ [']']) ++ '\n' :: ser_body kx) := by
    simp [write_keywords, read_keywords_all, hktsx]
  have hfold1 := fold_ser_body kx hclx ⟨[], [], some nx, none⟩ []
  rw [List.append_nil] at hfold1
  have hst1 : (split_nl (('[' :: nx ++ [']']) ++ '\n' :: ser_body kx)).foldl
      process_line ⟨[], [], none, none⟩ = ⟨[], kx, some nx, none⟩ := by
    rw [split_nl_append _ _ hmemx, List.foldl_cons, process_header_from_init, hfold1]
    show (split_nl []).foldl process_line (⟨[], ins_all [] kx, some nx, none⟩ : ReadState) =
      (⟨[], kx, some nx, none⟩ : ReadState)
    rw [ins_all_nil_left kx hclx]
    rfl
  have hexist : read_keywords_all (some (('[' :: nx ++ [']']) ++ '\n' :: ser_body kx)) =
      [(nx, kx)] := by
    rw [read_all_of_fold _ _ hst1, commit_blocks_named _ _ _ _ hkx]
    rfl
  have hds : dict_set [(nx, kx)] ny ky = [(nx, kx), (ny, ky)] := by
    simp [dict_set, hxy]
  refine ⟨('[' :: nx ++ [']']) ++ '\n' :: (ser_body kx ++ '\n' ::
    (('[' :: ny ++ [']']) ++ '\n' :: (ser_body ky ++ ['\n']))), hw1, ?_, ?_, ?_⟩
  · have hexist2 := hexist
    simp only [List.cons_append, List.append_assoc, List.nil_append,
      List.singleton_append] at hexist2
    simp [write_keywords, hexist2, hny, hds, write_blocks, hktsx, hktsy]
  · have hstep2 : process_line ⟨[], kx, some nx, none⟩ ('[' :: ny ++ [']']) =
        ⟨[(nx, kx)], [], some ny, some kx⟩ := by
      rw [process_header_line]
      simp [commit_blocks, upd_first, hkx, dict_set]
    have hst2 : (split_nl (('[' :: nx ++ [']']) ++ '\n' :: (ser_body kx ++ '\n' ::
        (('[' :: ny ++ [']']) ++ '\n' :: (ser_body ky ++ ['\n']))))).foldl
        process_line ⟨[], [], none, none⟩ = ⟨[(nx, kx)], ky, some ny, some kx⟩ := by
      rw [split_nl_append _ _ hmemx, List.foldl_cons, process_header_from_init,
        fold_ser_body kx hclx ⟨[], [], some nx, none⟩
          ('\n' :: (('[' :: ny ++ [']']) ++ '\n' :: (ser_body ky ++ ['\n'])))]
      show (split_nl ('\n' :: (('[' :: ny ++ [']']) ++ '\n' ::
          (ser_body ky ++ ['\n'])))).foldl process_line
          (⟨[], ins_all [] kx, some nx, none⟩ : ReadState) =
        (⟨[(nx, kx)], ky, some ny, some kx⟩ : ReadState)
      rw [ins_all_nil_left kx hclx]
      have hsplith : split_nl ('\n' :: (('[' :: ny ++ [']']) ++ '\n' ::
          (ser_body ky ++ ['\n']))) =
          [] :: split_nl (('[' :: ny ++ [']']) ++ '\n' :: (ser_body ky ++ ['\n'])) := by
        simp [split_nl]
      rw [hsplith, List.foldl_cons, process_blank,
        split_nl_append _ _ hmemy, List.foldl_cons, hstep2,
        fold_ser_body ky hcly ⟨[(nx, kx)], [], some ny, some kx⟩ ['\n']]
      show (split_nl ['\n']).foldl process_line
          (⟨[(nx, kx)], ins_all [] ky, some ny, some kx⟩ : ReadState) =
        (⟨[(nx, kx)], ky, some ny, some kx⟩ : ReadState)
      rw [ins_all_nil_left ky hcly]
      rfl
    rw [read_all_of_fold _ _ hst2, commit_blocks_named _ _ _ _ hky]
    exact hds
  · have hstep2 : process_line ⟨[], kx, some nx, none⟩ ('[' :: ny ++ [']']) =
        ⟨[(nx, kx)], [], some ny, some kx⟩ := by
      rw [process_header_line]
      simp [commit_blocks, upd_first, hkx, dict_set]
    have hst2 : (split_nl (('[' :: nx ++ [']']) ++ '\n' :: (ser_body kx ++ '\n' ::
        (('[' :: ny ++ [']']) ++ '\n' :: (ser_body ky ++ ['\n']))))).foldl
        process_line ⟨[], [], none, none⟩ = ⟨[(nx, kx)], ky, some ny, some kx⟩ := by
      rw [split_nl_append _ _ hmemx, List.foldl_cons, process_header_from_init,
        fold_ser_body kx hclx ⟨[], [], some nx, none⟩
          ('\n' :: (('[' :: ny ++ [']']) ++ '\n' :: (ser_body ky ++ ['\n'])))]
      show (split_nl ('\n' :: (('[' :: ny ++ [']']) ++ '\n' ::
          (ser_body ky ++ ['\n'])))).foldl process_line
          (⟨[], ins_all [] kx, some nx, none⟩ : ReadState) =
        (⟨[(nx, kx)], ky, some ny, some kx⟩ : ReadState)
      rw [ins_all_nil_left kx hclx]
      have hsplith : split_nl ('\n' :: (('[' :: ny ++ [']']) ++ '\n' ::
          (ser_body ky ++ ['\n']))) =
          [] :: split_nl (('[' :: ny ++ [']']) ++ '\n' :: (ser_body ky ++ ['\n'])) := by
        simp [split_nl]
      rw [hsplith, List.foldl_cons, process_blank,
        split_nl_append _ _ hmemy, List.foldl_cons, hstep2,
        fold_ser_body ky hcly ⟨[(nx, kx)], [], some ny, some kx⟩ ['\n']]
      show (split_nl ['\n']).foldl process_line
          (⟨[(nx, kx)], ins_all [] ky, some ny, some kx⟩ : ReadState) =
        (⟨[(nx, kx)], ky, some ny, some kx⟩ : ReadState)
      rw [ins_all_nil_left ky hcly]
      rfl
    rw [read_sub_of_fold _ _ _ hst2, commit_blocks_named _ _ _ _ hky, hds]
    simp [dict_get]

theorem multilayer_round_trip_witness :
    ∃ c2 : Str,
      write_keywords [("a".toList, PyVal.pstr "1".toList)] (some "x".toList) none =
        WriteResult.ok (('[' :: "x".toList ++ [']']) ++ '\n' ::
          ser_body [("a".toList, PyVal.pstr "1".toList)]) ∧
      write_keywords [("b".toList, PyVal.pstr "2".toList)] (some "y".toList)
          (some (('[' :: "x".toList ++ [']']) ++ '\n' ::
            ser_body [("a".toList, PyVal.pstr "1".toList)])) = WriteResult.ok c2 ∧
      read_keywords_all (some c2) =
        [("x".toList, [("a".toList, PyVal.pstr "1".toList)]),
         ("y".toList, [("b".toList, PyVal.pstr "2".toList)])] ∧
      read_keywords_sub (some c2) "x".toList =
        some [("a".toList, PyVal.pstr "1".toList)] :=
  multilayer_round_trip "x".toList "y".toList
    [("a".toList, PyVal.pstr "1".toList)] [("b".toList, PyVal.pstr "2".toList)]
    (by decide) (by decide) (by decide) (by decide) (by decide) (by decide)
    (by decide) (by decide)

theorem bbox_loop_all_valid (l : List BBox)
    (h : ∀ b ∈ l, b.west < b.east ∧ b.south < b.north) :
    ∀ r : BBox, bbox_loop r l = Except.ok (l.foldl bbox_comb r) := by
  induction l with
  | nil => intro r; rfl
  | cons b rest ih =>
    intro r
    have hb := h b (List.mem_cons_self b rest)
    simp only [bbox_loop, if_neg (not_not_intro hb.1), if_neg (not_not_intro hb.2),
      List.foldl_cons]
    exact ih (fun x hx => h x (List.mem_cons_of_mem b hx)) (bbox_comb r b)

theorem bbox_loop_invalid (l : List BBox) (b : BBox) (hb : b ∈ l)
    (hbad : ¬(b.west < b.east ∧ b.south < b.north)) :
    ∀ r : BBox, ∃ e, bbox_loop r l = Except.error e := by
  induction l with
  | nil => simp at hb
  | cons a rest ih =>
    intro r
    by_cases h1 : a.west < a.east
    · by_cases h2 : a.south < a.north
      · rcases List.mem_cons.mp hb with rfl | hb2
        · exact absurd ⟨h1, h2⟩ hbad
        · simp only [bbox_loop, if_neg (not_not_intro h1), if_neg (not_not_intro h2)]
          exact ih hb2 (bbox_comb r a)
      · exact ⟨"Southern boundary must be less than northern",
          by simp [bbox_loop, h1, h2]⟩
    · exact ⟨"Western boundary must be less than eastern", by simp [bbox_loop, h1]⟩

/-- C6: `bbox_intersection` demands at least two boxes (validation error
otherwise), rejects any box with west >= east or south >= north, and on
valid input folds max-of-west/south and min-of-east/north starting from
the universal box `[-180, -90, 180, 90]`, returning `None` when the
result is degenerate.  The two concrete examples of the specification
are reproduced. -/
theorem bbox_intersection_spec :
    (∀ args : List BBox, args.length < 2 →
      ∃ e, bbox_intersection args = Except.error e) ∧
    (∀ (args : List BBox) (b : BBox), b ∈ args →
      ¬(b.west < b.east ∧ b.south < b.north) →
      ∃ e, bbox_intersection args = Except.error e) ∧
    (∀ args : List BBox, 2 ≤ args.length →
      (∀ b ∈ args, b.west < b.east ∧ b.south < b.north) →
      bbox_intersection args =
        Except.ok (if (args.foldl bbox_comb ⟨-180, -90, 180, 90⟩).west <
              (args.foldl bbox_comb ⟨-180, -90, 180, 90⟩).east ∧
            (args.foldl bbox_comb ⟨-180, -90, 180, 90⟩).south <
              (args.foldl bbox_comb ⟨-180, -90, 180, 90⟩).north
          then some (args.foldl bbox_comb ⟨-180, -90, 180, 90⟩) else none)) ∧
    bbox_intersection [⟨0, 0, 10, 10⟩, ⟨5, 5, 15, 15⟩] = Except.ok (some ⟨5, 5, 10, 10⟩) ∧
    bbox_intersection [⟨0, 0, 1, 1⟩, ⟨2, 2, 3, 3⟩] = Except.ok none := by
  refine ⟨?_, ?_, ?_, by decide, by decide⟩
  · intro args h
    have hle : args.length ≤ 1 := by omega
    exact ⟨"Function bbox_intersection must take at least 2 arguments",
      by simp [bbox_intersection, hle]⟩
  · intro args b hb hbad
    by_cases hlen : args.length ≤ 1
    · exact ⟨"Function bbox_intersection must take at least 2 arguments",
        by simp [bbox_intersection, hlen]⟩
    · obtain ⟨e, he⟩ := bbox_loop_invalid args b hb hbad ⟨-180, -90, 180, 90⟩
      exact ⟨e, by simp [bbox_intersection, hlen, he]⟩
  · intro args hlen hvalid
    have hloop := bbox_loop_all_valid args hvalid ⟨-180, -90, 180, 90⟩
    have hlen2 : ¬ args.length ≤ 1 := by omega
    simp [bbox_intersection, hlen2, hloop]

theorem bbox_intersection_spec_witness :
    (∃ e, bbox_intersection [(⟨0, 0, 10, 10⟩ : BBox)] = Except.error e) ∧
    (∃ e, bbox_intersection [(⟨0, 0, 10, 10⟩ : BBox), ⟨5, 5, 3, 8⟩] = Except.error e) ∧
    bbox_intersection [(⟨0, 0, 10, 10⟩ : BBox), ⟨5, 5, 15, 15⟩] =
      Except.ok (if ([(⟨0, 0, 10, 10⟩ : BBox), ⟨5, 5, 15, 15⟩].foldl bbox_comb
            ⟨-180, -90, 180, 90⟩).west < ([(⟨0, 0, 10, 10⟩ : BBox), ⟨5, 5, 15, 15⟩].foldl
            bbox_comb ⟨-180, -90, 180, 90⟩).east ∧
          ([(⟨0, 0, 10, 10⟩ : BBox), ⟨5, 5, 15, 15⟩].foldl bbox_comb
            ⟨-180, -90, 180, 90⟩).south < ([(⟨0, 0, 10, 10⟩ : BBox), ⟨5, 5, 15, 15⟩].foldl
            bbox_comb ⟨-180, -90, 180, 90⟩).north
        then some ([(⟨0, 0, 10, 10⟩ : BBox), ⟨5, 5, 15, 15⟩].foldl bbox_comb
          ⟨-180, -90, 180, 90⟩) else none) :=
  ⟨bbox_intersection_spec.1 [⟨0, 0, 10, 10⟩] (by decide),
   bbox_intersection_spec.2.1 [⟨0, 0, 10, 10⟩, ⟨5, 5, 3, 8⟩] ⟨5, 5, 3, 8⟩
     (by decide) (by decide),
   bbox_intersection_spec.2.2.1 [⟨0, 0, 10, 10⟩, ⟨5, 5, 15, 15⟩] (by decide) (by decide)⟩

theorem shoelace_sum_translate (a b : ℚ) (p : ℚ × ℚ) (rest : List (ℚ × ℚ)) :
    shoelace_sum ((p :: rest).map (fun q => (q.1 - a, q.2 - b))) =
      shoelace_sum (p :: rest) + b * ((rest.getLastD p).1 - p.1) +
        a * (p.2 - (rest.getLastD p).2) := by
  induction rest generalizing p with
  | nil => simp [shoelace_sum]
  | cons q rs ih =>
    simp only [List.map_cons, shoelace_sum]
    have ih2 := ih q
    simp only [List.map_cons] at ih2
    rw [ih2, List.getLastD_cons]
    ring

/-- C8: `calculate_polygon_centroid` coincides with the reference
computation the specification describes (translate by the
coordinate-wise minimum, signed shoelace area, centroid sums over `6A`,
translate back) for every closed ring: the only textual difference —
the source computes the signed area on the original ring rather than on
the translated ring — vanishes because the shoelace sum of a closed
ring is translation invariant.  The unit-square centroid is (1/2, 1/2). -/
theorem polygon_centroid_spec (p : ℚ × ℚ) (rest : List (ℚ × ℚ))
    (hclosed : rest.getLastD p = p)
    (hA : shoelace_sum (p :: rest) ≠ 0) :
    calculate_polygon_centroid (p :: rest) = spec_polygon_centroid (p :: rest) ∧
    calculate_polygon_centroid [(0, 0), (1, 0), (1, 1), (0, 1), (0, 0)] =
      (1 / 2, 1 / 2) := by
  constructor
  · have htrans : ∀ a b : ℚ, shoelace_sum (translate_poly (p :: rest) a b) =
        shoelace_sum (p :: rest) := by
      intro a b
      simp only [translate_poly]
      rw [shoelace_sum_translate a b p rest, hclosed]
      ring
    simp only [calculate_polygon_centroid, spec_polygon_centroid, calculate_polygon_area,
      if_true, htrans]
  · norm_num [calculate_polygon_centroid, calculate_polygon_area, shoelace_sum,
      centroid_sum_x, centroid_sum_y, translate_poly, list_min]

theorem polygon_centroid_spec_witness :
    ([((1 : ℚ), (0 : ℚ)), (1, 1), (0, 1), (0, 0)].getLastD (0, 0) = ((0 : ℚ), (0 : ℚ))) ∧
    shoelace_sum [((0 : ℚ), (0 : ℚ)), (1, 0), (1, 1), (0, 1), (0, 0)] ≠ 0 ∧
    calculate_polygon_centroid [((0 : ℚ), (0 : ℚ)), (1, 0), (1, 1), (0, 1), (0, 0)] =
      spec_polygon_centroid [((0 : ℚ), (0 : ℚ)), (1, 0), (1, 1), (0, 1), (0, 0)] :=
  ⟨by decide, by norm_num [shoelace_sum],
   (polygon_centroid_spec (0, 0) [(1, 0), (1, 1), (0, 1), (0, 0)] (by decide)
     (by norm_num [shoelace_sum])).1⟩

/-- C9: a zero-length segment (`point1 = point2`, so `L = 0`) yields the
single-element list `[point1]` and no failure: `int(L / delta)` is zero,
the loop body never runs, and the NaN direction vector produced by the
numpy division by zero is never used. -/
theorem points_between_points_degenerate (p : ℝ × ℝ) (delta : ℝ) (hδ : 0 < delta) :
    points_between_points p p delta = [p] := by
  have hL : seg_length p p = 0 := by
    simp [seg_length]
  simp [points_between_points, hL, float_int, Int.floor_zero]

theorem points_between_points_degenerate_witness :
    points_between_points ((1 : ℝ), (2 : ℝ)) (1, 2) 5 = [(1, 2)] :=
  points_between_points_degenerate (1, 2) 5 (by norm_num)

theorem sub_ne_or (p1 p2 : ℝ × ℝ) (hne : p1 ≠ p2) :
    p2.1 - p1.1 ≠ 0 ∨ p2.2 - p1.2 ≠ 0 := by
  by_contra h
  push_neg at h
  exact hne (Prod.ext (by linarith [h.1]) (by linarith [h.2]))

theorem seg_sq_pos (p1 p2 : ℝ × ℝ) (hne : p1 ≠ p2) :
    0 < (p2.1 - p1.1) ^ 2 + (p2.2 - p1.2) ^ 2 := by
  rcases sub_ne_or p1 p2 hne with h | h
  · have h1 : 0 < (p2.1 - p1.1) ^ 2 := (sq_nonneg _).lt_of_ne (Ne.symm (pow_ne_zero 2 h))
    nlinarith [sq_nonneg (p2.2 - p1.2)]
  · have h1 : 0 < (p2.2 - p1.2) ^ 2 := (sq_nonneg _).lt_of_ne (Ne.symm (pow_ne_zero 2 h))
    nlinarith [sq_nonneg (p2.1 - p1.1)]

theorem seg_length_pos (p1 p2 : ℝ × ℝ) (hne : p1 ≠ p2) : 0 < seg_length p1 p2 :=
  Real.sqrt_pos.mpr (seg_sq_pos p1 p2 hne)

theorem step_point_eq_iff (p1 p2 : ℝ × ℝ) (delta : ℝ) (hne : p1 ≠ p2)
    (hδ : delta ≠ 0) (m n : ℕ) :
    step_point p1 p2 delta m = step_point p1 p2 delta n ↔ m = n := by
  constructor
  · intro h
    have hL : seg_length p1 p2 ≠ 0 := ne_of_gt (seg_length_pos p1 p2 hne)
    have h1 := congrArg Prod.fst h
    have h2 := congrArg Prod.snd h
    simp only [step_point] at h1 h2
    rcases sub_ne_or p1 p2 hne with hx | hx
    · have hnz : (p2.1 - p1.1) / seg_length p1 p2 ≠ 0 := div_ne_zero hx hL
      have h1' : (p2.1 - p1.1) / seg_length p1 p2 * (m : ℝ) * delta =
          (p2.1 - p1.1) / seg_length p1 p2 * (n : ℝ) * delta := by linarith
      have h3 := mul_left_cancel₀ hnz (mul_right_cancel₀ hδ h1')
      exact_mod_cast h3
    · have hnz : (p2.2 - p1.2) / seg_length p1 p2 ≠ 0 := div_ne_zero hx hL
      have h2' : (p2.2 - p1.2) / seg_length p1 p2 * (m : ℝ) * delta =
          (p2.2 - p1.2) / seg_length p1 p2 * (n : ℝ) * delta := by linarith
      have h3 := mul_left_cancel₀ hnz (mul_right_cancel₀ hδ h2')
      exact_mod_cast h3
  · rintro rfl
    rfl

theorem step_point_ne_start (p1 p2 : ℝ × ℝ) (delta : ℝ) (hne : p1 ≠ p2)
    (hδ : delta ≠ 0) (n : ℕ) (hn : 1 ≤ n) : step_point p1 p2 delta n ≠ p1 := by
  intro h
  have hL : seg_length p1 p2 ≠ 0 := ne_of_gt (seg_length_pos p1 p2 hne)
  have h1 := congrArg Prod.fst h
  have h2 := congrArg Prod.snd h
  simp only [step_point] at h1 h2
  have hnn : (n : ℝ) ≠ 0 := Nat.cast_ne_zero.mpr (by omega)
  rcases sub_ne_or p1 p2 hne with hx | hx
  · have hnz : (p2.1 - p1.1) / seg_length p1 p2 ≠ 0 := div_ne_zero hx hL
    have h3 : (p2.1 - p1.1) / seg_length p1 p2 * (n : ℝ) * delta = 0 := by linarith
    rcases mul_eq_zero.mp h3 with h4 | h4
    · rcases mul_eq_zero.mp h4 with h5 | h5
      · exact hnz h5
      · exact hnn h5
    · exact hδ h4
  · have hnz : (p2.2 - p1.2) / seg_length p1 p2 ≠ 0 := div_ne_zero hx hL
    have h3 : (p2.2 - p1.2) / seg_length p1 p2 * (n : ℝ) * delta = 0 := by linarith
    rcases mul_eq_zero.mp h3 with h4 | h4
    · rcases mul_eq_zero.mp h4 with h5 | h5
      · exact hnz h5
      · exact hnn h5
    · exact hδ h4

theorem step_point_end (p1 p2 : ℝ × ℝ) (delta : ℝ) (hne : p1 ≠ p2) :
    ∀ n : ℕ, (step_point p1 p2 delta n = p2 ↔
      (n : ℝ) * delta = seg_length p1 p2) := by
  intro n
  have hL : seg_length p1 p2 ≠ 0 := ne_of_gt (seg_length_pos p1 p2 hne)
  constructor
  · intro h
    have h1 := congrArg Prod.fst h
    have h2 := congrArg Prod.snd h
    simp only [step_point] at h1 h2
    rcases sub_ne_or p1 p2 hne with hx | hx
    · have ha : (p2.1 - p1.1) / seg_length p1 p2 * (n : ℝ) * delta = p2.1 - p1.1 := by
        linarith
      field_simp at ha
      have e1 : (p2.1 - p1.1) * ((n : ℝ) * delta) =
          (p2.1 - p1.1) * seg_length p1 p2 := by
        linear_combination ha
      exact mul_left_cancel₀ hx e1
    · have ha : (p2.2 - p1.2) / seg_length p1 p2 * (n : ℝ) * delta = p2.2 - p1.2 := by
        linarith
      field_simp at ha
      have e1 : (p2.2 - p1.2) * ((n : ℝ) * delta) =
          (p2.2 - p1.2) * seg_length p1 p2 := by
        linear_combination ha
      exact mul_left_cancel₀ hx e1
  · intro h
    have e1 : (p2.1 - p1.1) / seg_length p1 p2 * (n : ℝ) * delta = p2.1 - p1.1 := by
      rw [mul_assoc, h, div_mul_cancel₀ _ hL]
    have e2 : (p2.2 - p1.2) / seg_length p1 p2 * (n : ℝ) * delta = p2.2 - p1.2 := by
      rw [mul_assoc, h, div_mul_cancel₀ _ hL]
    simp only [step_point]
    exact Prod.ext (by rw [e1]; ring) (by rw [e2]; ring)

/-- C7: for distinct endpoints and positive `delta`,
`points_between_points` returns the start point followed by the points
at travelled distance `n * delta` for `n = 1 .. int(L / delta)`: every
step strictly inside the segment is present, nothing beyond the segment
length appears, the final fractional remainder is dropped, and the end
point itself appears exactly when `L` is a whole multiple of `delta`.
The concrete example `(0,0) -> (10,0)` with `delta = 3` gives
`[(0,0), (3,0), (6,0), (9,0)]`. -/
theorem points_between_points_spec (p1 p2 : ℝ × ℝ) (delta : ℝ)
    (hne : p1 ≠ p2) (hδ : 0 < delta) :
    points_between_points p1 p2 delta =
      p1 :: (List.range (⌊seg_length p1 p2 / delta⌋).toNat).map
        (fun nn => step_point p1 p2 delta (nn + 1)) ∧
    (∀ n : ℕ, 1 ≤ n → (n : ℝ) * delta < seg_length p1 p2 →
      step_point p1 p2 delta n ∈ points_between_points p1 p2 delta) ∧
    (∀ n : ℕ, 1 ≤ n → step_point p1 p2 delta n ∈ points_between_points p1 p2 delta →
      (n : ℝ) * delta ≤ seg_length p1 p2) ∧
    (p2 ∈ points_between_points p1 p2 delta ↔
      ∃ m : ℕ, 1 ≤ m ∧ seg_length p1 p2 = (m : ℝ) * delta) ∧
    points_between_points ((0 : ℝ), (0 : ℝ)) (10, 0) 3 = [(0, 0), (3, 0), (6, 0), (9, 0)] := by
  have hL : 0 < seg_length p1 p2 := seg_length_pos p1 p2 hne
  have hδne : delta ≠ 0 := ne_of_gt hδ
  have hq0 : (0 : ℝ) ≤ seg_length p1 p2 / delta := div_nonneg hL.le hδ.le
  have hfl : float_int (seg_length p1 p2 / delta) = ⌊seg_length p1 p2 / delta⌋ := by
    rw [float_int, if_pos hq0]
  have hfloor0 : 0 ≤ ⌊seg_length p1 p2 / delta⌋ := Int.floor_nonneg.mpr hq0
  have hshape : points_between_points p1 p2 delta =
      p1 :: (List.range (⌊seg_length p1 p2 / delta⌋).toNat).map
        (fun nn => step_point p1 p2 delta (nn + 1)) := by
    simp only [points_between_points, hfl]
    refine congrArg₂ List.cons rfl ?_
    apply List.map_congr_left
    intro nn _
    simp only [step_point]
    push_cast
    ring_nf
  refine ⟨hshape, ?_, ?_, ?_, ?_⟩
  · intro n hn hlt
    rw [hshape]
    refine List.mem_cons_of_mem _ (List.mem_map.mpr ⟨n - 1, ?_, ?_⟩)
    · rw [List.mem_range]
      have h1 : (n : ℝ) ≤ seg_length p1 p2 / delta := by
        rw [le_div_iff₀ hδ]
        exact hlt.le
      have h2 : (n : ℤ) ≤ ⌊seg_length p1 p2 / delta⌋ := Int.le_floor.mpr (by push_cast; exact h1)
      have h3 : n ≤ (⌊seg_length p1 p2 / delta⌋).toNat := (Int.le_toNat hfloor0).mpr h2
      omega
    · rw [Nat.sub_add_cancel hn]
  · intro n hn hmem
    rw [hshape] at hmem
    rcases List.mem_cons.mp hmem with h | h
    · exact absurd h (step_point_ne_start p1 p2 delta hne hδne n hn)
    · obtain ⟨k, hk, he⟩ := List.mem_map.mp h
      have hkn : k + 1 = n := (step_point_eq_iff p1 p2 delta hne hδne (k + 1) n).mp he
      rw [List.mem_range] at hk
      have h2 : (n : ℤ) ≤ ⌊seg_length p1 p2 / delta⌋ := (Int.le_toNat hfloor0).mp (by omega)
      have h3 : (n : ℝ) ≤ seg_length p1 p2 / delta := by
        have h4 := Int.le_floor.mp h2
        push_cast at h4
        exact h4
      exact (le_div_iff₀ hδ).mp h3
  · constructor
    · intro hmem
      rw [hshape] at hmem
      rcases List.mem_cons.mp hmem with h | h
      · exact absurd h.symm hne
      · obtain ⟨k, hk, he⟩ := List.mem_map.mp h
        have h2 := (step_point_end p1 p2 delta hne (k + 1)).mp he
        exact ⟨k + 1, by omega, h2.symm⟩
    · rintro ⟨m, hm, hLm⟩
      rw [hshape]
      refine List.mem_cons_of_mem _ (List.mem_map.mpr ⟨m - 1, ?_, ?_⟩)
      · rw [List.mem_range]
        have hdiv : seg_length p1 p2 / delta = (m : ℝ) := by
          rw [hLm, mul_div_cancel_right₀ _ hδne]
        have h4 : ⌊seg_length p1 p2 / delta⌋ = (m : ℤ) := by
          rw [hdiv]
          exact Int.floor_natCast m
        rw [h4]
        omega
      · rw [Nat.sub_add_cancel hm]
        exact (step_point_end p1 p2 delta hne m).mpr hLm.symm
  · have h100 : seg_length ((0 : ℝ), (0 : ℝ)) ((10 : ℝ), (0 : ℝ)) = 10 := by
      show Real.sqrt (((10 : ℝ) - 0) ^ 2 + ((0 : ℝ) - 0) ^ 2) = 10
      rw [show ((10 : ℝ) - 0) ^ 2 + ((0 : ℝ) - 0) ^ 2 = 10 ^ 2 by norm_num]
      exact Real.sqrt_sq (by norm_num)
    have hfl3 : float_int ((10 : ℝ) / 3) = 3 := by
      rw [float_int, if_pos (by norm_num)]
      rw [show ⌊(10 : ℝ) / 3⌋ = 3 from Int.floor_eq_iff.mpr (by norm_num)]
    simp only [points_between_points, h100, hfl3, show (3 : ℤ).toNat = 3 from rfl]
    norm_num [List.range_succ]

theorem points_between_points_spec_witness :
    points_between_points ((0 : ℝ), (0 : ℝ)) (10, 0) 3 =
      [(0, 0), (3, 0), (6, 0), (9, 0)] :=
  (points_between_points_spec (0, 0) (10, 0) 3 (by norm_num [Prod.ext_iff])
    (by norm_num)).2.2.2.2
